import Mathlib

/-!
Verification of the numeric core of the roll-phi widgets:

* the dice-coefficient engine `pascal` of `binomial.js` (rows of the
  generalized binomial triangle for `n` dice with `die` faces, memoized
  in `this.triangle`, stored in a `BigInt64Array` for rows with `n < 27`
  and in a plain `Array` of `BigInt` otherwise), and
* the normal-distribution library `Normal` of `rollφ.js`
  (`erfc`, `erf`, `pdf`, `cdf`, `cdfc`, `probit`).

Machine integers: JavaScript `BigInt` values are exact integers (`ℤ`);
a store into a `BigInt64Array` wraps the value to the signed 64-bit range,
modelled by `wrap64`.  JavaScript floating-point numbers are modelled by
`JSNum`: an exact rational together with the IEEE special values
`Infinity`, `-Infinity` and `NaN`; the opaque primitives `Math.exp` and
`Math.sqrt` are abstracted as a `JSMath` parameter.
-/

set_option maxRecDepth 100000

/-- The two exceptions thrown by `pascal` in `binomial.js`:
`throw \x7bn must be >= 1\x7d` for `n < 1` and
`throw \x7bYou must be kidding!\x7d` for `n * die > 1000`. -/
inductive PascalErr where
  | invalidArgument
  | computationTooLarge
deriving DecidableEq

/-- `BigInt64Array` store semantics: every write reduces the stored
`BigInt` to the signed 64-bit range `[-2^63, 2^63)` modulo `2^64`. -/
def wrap64 (v : ℤ) : ℤ := (v + 2 ^ 63) % 2 ^ 64 - 2 ^ 63

/-- Pointwise sum of two coefficient lists, the shorter padded with zeros. -/
def addPoly {R : Type} [CommSemiring R] : List R → List R → List R
  | [], ys => ys
  | xs, [] => xs
  | x :: xs, y :: ys => (x + y) :: addPoly xs ys

/-- Exact convolution of two coefficient lists: the coefficients of the
product of the two polynomials.  This is the inner double loop
`for i; for j; triangle[n][i+j] += left[i] * right[j]` of `pascal` when
the row is backed by a plain `Array` of `BigInt` (rows with `n >= 27`),
where `+=` on `BigInt` is exact arbitrary-precision arithmetic. -/
def convExact {R : Type} [CommSemiring R] : List R → List R → List R
  | [], _ => []
  | a :: as, g => addPoly (g.map (a * ·)) (0 :: convExact as g)

/-- The products accumulated into cell `k` by the double loop
`for i; for j; triangle[n][i+j] += left[i] * right[j]`, in loop order
(increasing `i`, with `j = k - i`); iterations that do not hit cell `k`
contribute `0`.  Distinct cells of the output row are written
independently by the loop, so the loop is embedded cell by cell. -/
def cellTerms (l r : List ℤ) (k : ℕ) : List ℤ :=
  (List.range l.length).map fun i =>
    if i ≤ k ∧ k - i < r.length then l.getD i 0 * r.getD (k - i) 0 else 0

/-- One cell of a `BigInt64Array`-backed row: the cell starts at the
zero-initialised entry and every `+=` store wraps to signed 64 bits. -/
def cellWrap (l r : List ℤ) (k : ℕ) : ℤ :=
  (cellTerms l r k).foldl (fun acc t => wrap64 (acc + t)) 0

/-- The convolution loop writing into a `BigInt64Array` of length
`l.length + r.length - 1` (rows with `2 <= n < 27`). -/
def convWrap (l r : List ℤ) : List ℤ :=
  (List.range (l.length + r.length - 1)).map (cellWrap l r)

/-- Fresh-engine denotation of `pascal(n)` from `binomial.js`.  The memo
cache `this.triangle` only shares work between calls: starting from an
empty cache the returned row is a function of `(die, n)` alone, computed
by the same recursion embedded here — the `n < 1` guard, the base row of
`die` ones for `n == 1` (a `BigInt64Array` holding `1n` entries), the size
guard `n * die > 1000`, and otherwise the split `left = n >> 1`,
`right = n - (n >> 1)` followed by the convolution loop, which wraps to
signed 64 bits exactly when the row storage is a `BigInt64Array`
(`n < 27`).  The stateful engine with its cache is `pascalSt` below. -/
def pascalRec (die : ℕ) (n : ℤ) : Except PascalErr (List ℤ) :=
  if n < 1 then .error .invalidArgument
  else if n = 1 then .ok (List.replicate die (1 : ℤ))
  else if n * die > 1000 then .error .computationTooLarge
  else
    match pascalRec die (n / 2), pascalRec die (n - n / 2) with
    | .ok l, .ok r => .ok (if n < 27 then convWrap l r else convExact l r)
    | .error e, _ => .error e
    | _, .error e => .error e
termination_by n.toNat
decreasing_by
  · omega
  · omega

/-- The state of a `binom-viz` element as seen by `pascal`: the `die`
attribute (read through the getter `this.die` on every use) and the memo
cache `this.triangle`, a sparse array from row index to row. -/
structure Engine where
  die : ℕ
  tri : ℤ → Option (List ℤ)

/-- `this.triangle[n] = row`. -/
def Engine.insert (e : Engine) (n : ℤ) (row : List ℤ) : Engine :=
  { e with tri := Function.update e.tri n (some row) }

/-- Stateful embedding of `pascal(n)`: checks `n < 1`, then returns the
cached row if `this.triangle[n]` is defined; otherwise computes the row
exactly as in the source and stores it in the cache.  The JavaScript code
allocates the zero-filled `triangle[n]` before the recursive calls, but
the recursion for `left`/`right` only ever reads indices `<= left` and
`<= right`, both `< n`, so inserting the finished row afterwards is
observationally identical. -/
def pascalSt (e : Engine) (n : ℤ) : Except PascalErr (List ℤ × Engine) :=
  if n < 1 then .error .invalidArgument
  else
    match e.tri n with
    | some row => .ok (row, e)
    | none =>
      if n = 1 then
        .ok (List.replicate e.die (1 : ℤ), e.insert 1 (List.replicate e.die (1 : ℤ)))
      else if n * e.die > 1000 then .error .computationTooLarge
      else
        match pascalSt e (n / 2) with
        | .error er => .error er
        | .ok (l, e1) =>
          match pascalSt e1 (n - n / 2) with
          | .error er => .error er
          | .ok (r, e2) =>
            .ok (if n < 27 then convWrap l r else convExact l r,
                 e2.insert n (if n < 27 then convWrap l r else convExact l r))
termination_by n.toNat
decreasing_by
  · omega
  · omega

/-- Spec-side row: the exact coefficients of `(1 + x + ... + x^(die-1))^n`,
defined as the iterated convolution of the single-die row of `die` ones;
`specRow die 0` is the constant polynomial `1`. -/
def specRow (die : ℕ) : ℕ → List ℕ
  | 0 => [1]
  | n + 1 => convExact (specRow die n) (List.replicate die 1)

/-- The polynomial denoted by a coefficient list (little-endian). -/
noncomputable def toPoly (l : List ℕ) : Polynomial ℕ :=
  l.foldr (fun a p => Polynomial.C a + Polynomial.X * p) 0

/-- The generating polynomial of a single die:
`1 + x + ... + x^(die-1)`. -/
noncomputable def dieP (die : ℕ) : Polynomial ℕ :=
  (Finset.range die).sum fun i => Polynomial.X ^ i

/-- The opaque floating-point primitives used by `rollφ.js`, abstracted:
`Math.exp` and `Math.sqrt` on finite arguments.  All other arithmetic is
modelled exactly (see `JSNum`). -/
structure JSMath where
  exp : ℚ → ℚ
  sqrt : ℚ → ℚ

/-- A JavaScript number: an exact rational (floating-point rounding is
abstracted away, every stated tolerance absorbs it), or one of the IEEE
special values `Infinity`, `-Infinity`, `NaN`.  Negative zero is
identified with zero, which agrees with every comparison and branch the
embedded code performs. -/
inductive JSNum where
  | num (q : ℚ)
  | posInf
  | negInf
  | nan
deriving DecidableEq

namespace JSNum

/-- IEEE negation. -/
def neg : JSNum → JSNum
  | num q => num (-q)
  | posInf => negInf
  | negInf => posInf
  | nan => nan

/-- IEEE addition: `NaN` propagates, opposite infinities give `NaN`. -/
def add : JSNum → JSNum → JSNum
  | nan, _ => nan
  | _, nan => nan
  | posInf, negInf => nan
  | negInf, posInf => nan
  | posInf, _ => posInf
  | _, posInf => posInf
  | negInf, _ => negInf
  | _, negInf => negInf
  | num a, num b => num (a + b)

/-- IEEE subtraction is addition of the negation. -/
def sub (a b : JSNum) : JSNum := add a (neg b)

/-- IEEE multiplication: `NaN` propagates, `0 * Infinity` is `NaN`. -/
def mul : JSNum → JSNum → JSNum
  | nan, _ => nan
  | _, nan => nan
  | posInf, posInf => posInf
  | posInf, negInf => negInf
  | negInf, posInf => negInf
  | negInf, negInf => posInf
  | posInf, num q => if q = 0 then nan else if 0 < q then posInf else negInf
  | num q, posInf => if q = 0 then nan else if 0 < q then posInf else negInf
  | negInf, num q => if q = 0 then nan else if 0 < q then negInf else posInf
  | num q, negInf => if q = 0 then nan else if 0 < q then negInf else posInf
  | num a, num b => num (a * b)

/-- IEEE division: `NaN` propagates, `Infinity / Infinity` is `NaN`,
division by zero gives a signed infinity (`0 / 0` gives `NaN`),
division by an infinity gives zero. -/
def div : JSNum → JSNum → JSNum
  | nan, _ => nan
  | _, nan => nan
  | posInf, posInf => nan
  | posInf, negInf => nan
  | negInf, posInf => nan
  | negInf, negInf => nan
  | posInf, num q => if 0 ≤ q then posInf else negInf
  | negInf, num q => if 0 ≤ q then negInf else posInf
  | num _, posInf => num 0
  | num _, negInf => num 0
  | num a, num b =>
    if b = 0 then (if a = 0 then nan else if 0 < a then posInf else negInf)
    else num (a / b)

/-- `Math.abs`. -/
def abs : JSNum → JSNum
  | num q => num |q|
  | nan => nan
  | _ => posInf

/-- JavaScript `<`: false whenever `NaN` is involved. -/
def lt : JSNum → JSNum → Bool
  | nan, _ => false
  | _, nan => false
  | num a, num b => decide (a < b)
  | negInf, negInf => false
  | negInf, _ => true
  | _, negInf => false
  | num _, posInf => true
  | posInf, _ => false

/-- JavaScript `<=`: false whenever `NaN` is involved. -/
def le : JSNum → JSNum → Bool
  | nan, _ => false
  | _, nan => false
  | num a, num b => decide (a ≤ b)
  | negInf, _ => true
  | _, negInf => false
  | _, posInf => true
  | posInf, _ => false

/-- JavaScript `>`. -/
def gt (a b : JSNum) : Bool := lt b a

/-- JavaScript `>=`. -/
def ge (a b : JSNum) : Bool := le b a

/-- JavaScript `==` on numbers: false whenever `NaN` is involved. -/
def eq : JSNum → JSNum → Bool
  | nan, _ => false
  | _, nan => false
  | num a, num b => decide (a = b)
  | posInf, posInf => true
  | negInf, negInf => true
  | _, _ => false

end JSNum

/-- `Math.exp` lifted to `JSNum`: finite arguments go through the
abstract `JSMath.exp`, `Math.exp(-Infinity) = 0`,
`Math.exp(Infinity) = Infinity`, `Math.exp(NaN) = NaN`. -/
def expJS (M : JSMath) : JSNum → JSNum
  | .num q => .num (M.exp q)
  | .posInf => .posInf
  | .negInf => .num 0
  | .nan => .nan

/-- The exact value of the double constant `Math.SQRT2`. -/
def sqrt2Q : ℚ := 6369051672525773 / 4503599627370496

/-- The exact value of the double constant `Math.PI`. -/
def piQ : ℚ := 884279719003555 / 281474976710656

namespace Normal

/-- The error thrown by `Normal.probit` for `y` outside `[0, 1]`. -/
inductive NormalErr where
  | invalidArgument
deriving DecidableEq

/-- Leading constant `0.56418958354775629` of the `erfc` approximation. -/
def erfcC1 : ℚ := 0.56418958354775629

/-- Leading denominator shift `2.06955023132914151` of the `erfc`
approximation. -/
def erfcC2 : ℚ := 2.06955023132914151

/-- The five fixed coefficient quadruples `as` of the `erfc` rational
minimax approximation, exactly as in the source. -/
def erfcRows : List (ℚ × ℚ × ℚ × ℚ) :=
  [(2.71078540045147805, 5.80755613130301624, 3.47954057099518960, 12.06166887286239555),
   (3.47469513777439592, 12.07402036406381411, 3.72068443960225092, 8.44319781003968454),
   (4.00561509202259545, 9.30596659485887898, 3.90225704029924078, 6.36161630953880464),
   (5.16722705817812584, 9.12661617673673262, 4.03296893109262491, 5.13578530585681539),
   (5.95908795446633271, 9.19435612886969243, 4.11240942957450885, 4.48640329523408675)]

/-- The non-negative branch of `Normal.erfc`: the `x >= 30` saturation,
then `res = Math.exp(-x*x) * 0.564... / (x + 2.069...)` followed by the
five correction factors `res *= ((x+a0)*x+a1) / ((x+a2)*x+a3)`. -/
def erfcPos (M : JSMath) (x : JSNum) : JSNum :=
  if JSNum.ge x (.num 30) then .num 0
  else
    erfcRows.foldl
      (fun res a =>
        JSNum.mul res
          (JSNum.div
            (JSNum.add (JSNum.mul (JSNum.add x (.num a.1)) x) (.num a.2.1))
            (JSNum.add (JSNum.mul (JSNum.add x (.num a.2.2.1)) x) (.num a.2.2.2))))
      (JSNum.div (JSNum.mul (expJS M (JSNum.neg (JSNum.mul x x))) (.num erfcC1))
        (JSNum.add x (.num erfcC2)))

/-- `Normal.erfc`.  The source line `if (x < 0) return 2 - Normal.erfc(-x)`
recurses once; since `x < 0` forces `-x > 0`, the inner call always takes
the non-negative branch, so the recursion is embedded through `erfcPos`. -/
def erfc (M : JSMath) (x : JSNum) : JSNum :=
  if JSNum.lt x (.num 0) then JSNum.sub (.num 2) (erfcPos M (JSNum.neg x))
  else erfcPos M x

/-- `Normal.erf(x) = 1 - Normal.erfc(x)`. -/
def erf (M : JSMath) (x : JSNum) : JSNum := JSNum.sub (.num 1) (erfc M x)

/-- `Normal.pdf(x) = Math.exp(-x*x / 2) / Math.sqrt(2 * Math.PI)`. -/
def pdf (M : JSMath) (x : JSNum) : JSNum :=
  JSNum.div (expJS M (JSNum.div (JSNum.neg (JSNum.mul x x)) (.num 2)))
    (.num (M.sqrt (2 * piQ)))

/-- `Normal.cdf(x) = Normal.erfc(-x / Math.SQRT2) / 2`. -/
def cdf (M : JSMath) (x : JSNum) : JSNum :=
  JSNum.div (erfc M (JSNum.div (JSNum.neg x) (.num sqrt2Q))) (.num 2)

/-- `Normal.cdfc(x) = Normal.erfc(x / Math.SQRT2) / 2`. -/
def cdfc (M : JSMath) (x : JSNum) : JSNum :=
  JSNum.div (erfc M (JSNum.div x (.num sqrt2Q))) (.num 2)

/-- The Newton tolerance `2.3e-16` of `Normal.probit`. -/
def probitTol : ℚ := 2.3e-16

/-- The Newton `for` loop of `Normal.probit`:
`for (let cnt = 0; Math.abs(fx) > 2.3e-16 && cnt < 40; cnt++)` with body
`x -= fx / Normal.pdf(x); fx = Normal.cdf(x) - y`.  Returns the final
`x` together with the number of loop iterations executed. -/
def newton (M : JSMath) (y x fx : JSNum) (cnt : ℕ) : JSNum × ℕ :=
  if h : JSNum.gt (JSNum.abs fx) (.num probitTol) = true ∧ cnt < 40 then
    let x1 := JSNum.sub x (JSNum.div fx (pdf M x))
    newton M y x1 (JSNum.sub (cdf M x1) y) (cnt + 1)
  else (x, cnt)
termination_by 40 - cnt
decreasing_by omega

/-- `Normal.probit`: the domain test `y < 0 || y > 1`, the exact early
returns at `y == 0` and `y == 1` (no Newton iteration), then the Newton
loop started at `x = 0`, `fx = Normal.cdf(0) - y`, `cnt = 0`.  The second
component counts the Newton iterations executed. -/
def probit (M : JSMath) (y : JSNum) : Except NormalErr (JSNum × ℕ) :=
  if JSNum.lt y (.num 0) || JSNum.gt y (.num 1) then .error .invalidArgument
  else if JSNum.eq y (.num 0) then .ok (.negInf, 0)
  else if JSNum.eq y (.num 1) then .ok (.posInf, 0)
  else .ok (newton M y (.num 0) (JSNum.sub (cdf M (.num 0)) y) 0)

end Normal

example : pascalRec 2 4 = .ok [1, 4, 6, 4, 1] := by
  rw [pascalRec]
  norm_num
  rw [pascalRec]
  norm_num
  rw [pascalRec]
  norm_num
  decide
example : pascalRec 6 2 = .ok [1, 2, 3, 4, 5, 6, 5, 4, 3, 2, 1] := by
  rw [pascalRec]
  norm_num
  rw [pascalRec]
  norm_num
  decide
example : pascalRec 2 0 = .error .invalidArgument := by
  rw [pascalRec]
  norm_num
example : pascalRec 2 (-3) = .error .invalidArgument := by
  rw [pascalRec]
  norm_num
example : pascalRec 2 501 = .error .computationTooLarge := by
  rw [pascalRec]
  norm_num
example : pascalRec 1001 1 = .ok (List.replicate 1001 1) := by
  rw [pascalRec]
  norm_num
example : specRow 6 2 = [1, 2, 3, 4, 5, 6, 5, 4, 3, 2, 1] := by decide

/-! ### Basic lemmas about coefficient lists -/

theorem addPoly_nil_left {R : Type} [CommSemiring R] (y : List R) :
    addPoly [] y = y := by
  cases y <;> rfl

theorem addPoly_nil_right {R : Type} [CommSemiring R] (x : List R) :
    addPoly x [] = x := by
  cases x <;> rfl

theorem addPoly_length {R : Type} [CommSemiring R] (x y : List R) :
    (addPoly x y).length = max x.length y.length := by
  induction x generalizing y with
  | nil => simp [addPoly_nil_left]
  | cons a as ih =>
    cases y with
    | nil => simp [addPoly]
    | cons b bs =>
      simp only [addPoly, List.length_cons, ih]
      omega

theorem getD_addPoly {R : Type} [CommSemiring R] (x y : List R) (k : ℕ) :
    (addPoly x y).getD k 0 = x.getD k 0 + y.getD k 0 := by
  induction x generalizing y k with
  | nil => simp [addPoly_nil_left]
  | cons a as ih =>
    cases y with
    | nil => simp [addPoly]
    | cons b bs =>
      cases k with
      | zero => simp [addPoly]
      | succ k => simpa [addPoly] using ih bs k

theorem addPoly_sum {R : Type} [CommSemiring R] (x y : List R) :
    (addPoly x y).sum = x.sum + y.sum := by
  induction x generalizing y with
  | nil => simp [addPoly_nil_left]
  | cons a as ih =>
    cases y with
    | nil => simp [addPoly]
    | cons b bs =>
      simp only [addPoly, List.sum_cons, ih]
      ring

theorem getD_map_mul {R : Type} [CommSemiring R] (a : R) (l : List R) (k : ℕ) :
    (l.map (a * ·)).getD k 0 = a * l.getD k 0 := by
  induction l generalizing k with
  | nil => simp
  | cons b bs ih =>
    cases k with
    | zero => simp
    | succ k => simpa using ih k

theorem list_eq_of_getD {R : Type} (d : R) (x y : List R)
    (hlen : x.length = y.length) (h : ∀ k, x.getD k d = y.getD k d) : x = y := by
  induction x generalizing y with
  | nil =>
    cases y with
    | nil => rfl
    | cons b bs => simp at hlen
  | cons a as ih =>
    cases y with
    | nil => simp at hlen
    | cons b bs =>
      have h0 := h 0
      simp only [List.getD_cons_zero] at h0
      have htail : as = bs := by
        refine ih bs ?_ ?_
        · simpa using hlen
        · intro k
          simpa using h (k + 1)
      rw [h0, htail]

/-- Entry `k` of the convolution, as a sum over `i + j = k`. -/
theorem convExact_getD {R : Type} [CommSemiring R] (l r : List R) (k : ℕ) :
    (convExact l r).getD k 0 =
      (Finset.range (k + 1)).sum fun i => l.getD i 0 * r.getD (k - i) 0 := by
  induction l generalizing k with
  | nil =>
    simp [convExact]
  | cons a as ih =>
    rw [convExact, getD_addPoly, getD_map_mul]
    cases k with
    | zero => simp
    | succ k =>
      rw [Finset.sum_range_succ']
      simp only [List.getD_cons_succ, List.getD_cons_zero, Nat.succ_sub_succ,
        Nat.sub_zero]
      rw [ih k]
      ring


/-- Entry `k` of the convolution, as a sum over the indices of `l` with an
explicit in-range guard for the index into `r` (the shape of the double
loop of `pascal`). -/
theorem convExact_getD_guard {R : Type} [CommSemiring R] (l r : List R) (k : ℕ) :
    (convExact l r).getD k 0 =
      (Finset.range l.length).sum fun i =>
        if i ≤ k ∧ k - i < r.length then l.getD i 0 * r.getD (k - i) 0 else 0 := by
  classical
  rw [convExact_getD]
  have hstep1 :
      ((Finset.range (k + 1)).sum fun i => l.getD i 0 * r.getD (k - i) 0)
        = (Finset.range (k + 1)).sum fun i =>
            if i ≤ k ∧ k - i < r.length then l.getD i 0 * r.getD (k - i) 0 else 0 := by
    apply Finset.sum_congr rfl
    intro i hi
    have hik : i ≤ k := by
      have := Finset.mem_range.mp hi
      omega
    by_cases hr : k - i < r.length
    · rw [if_pos ⟨hik, hr⟩]
    · have hz : r.getD (k - i) 0 = 0 := List.getD_eq_default _ _ (by omega)
      rw [hz, mul_zero, if_neg]
      intro hx
      exact hr hx.2
  rw [hstep1]
  have hsub1 : Finset.range (k + 1) ⊆ Finset.range (max (k + 1) l.length) :=
    Finset.range_subset.mpr (le_max_left _ _)
  have hsub2 : Finset.range l.length ⊆ Finset.range (max (k + 1) l.length) :=
    Finset.range_subset.mpr (le_max_right _ _)
  have h1 : ∀ i ∈ Finset.range (max (k + 1) l.length), i ∉ Finset.range (k + 1) →
      (if i ≤ k ∧ k - i < r.length then l.getD i 0 * r.getD (k - i) 0 else 0) = 0 := by
    intro i _ hi
    have hik : k + 1 ≤ i := by
      simp only [Finset.mem_range] at hi
      omega
    rw [if_neg]
    intro hx
    omega
  have h2 : ∀ i ∈ Finset.range (max (k + 1) l.length), i ∉ Finset.range l.length →
      (if i ≤ k ∧ k - i < r.length then l.getD i 0 * r.getD (k - i) 0 else 0) = 0 := by
    intro i _ hi
    have hip : l.length ≤ i := by
      simp only [Finset.mem_range] at hi
      omega
    have hz : l.getD i 0 = 0 := List.getD_eq_default _ _ hip
    by_cases hc : i ≤ k ∧ k - i < r.length
    · rw [if_pos hc, hz, zero_mul]
    · rw [if_neg hc]
  calc
    ((Finset.range (k + 1)).sum fun i =>
        if i ≤ k ∧ k - i < r.length then l.getD i 0 * r.getD (k - i) 0 else 0)
      = (Finset.range (max (k + 1) l.length)).sum fun i =>
          if i ≤ k ∧ k - i < r.length then l.getD i 0 * r.getD (k - i) 0 else 0 :=
        Finset.sum_subset hsub1 h1
    _ = (Finset.range l.length).sum fun i =>
          if i ≤ k ∧ k - i < r.length then l.getD i 0 * r.getD (k - i) 0 else 0 :=
        (Finset.sum_subset hsub2 h2).symm

theorem convExact_length {R : Type} [CommSemiring R] (l r : List R)
    (hl : l ≠ []) (hr : r ≠ []) :
    (convExact l r).length = l.length + r.length - 1 := by
  induction l with
  | nil => exact absurd rfl hl
  | cons a as ih =>
    rw [convExact, addPoly_length, List.length_map]
    cases as with
    | nil =>
      have h1 : 1 ≤ r.length := List.length_pos.mpr hr
      simp only [convExact, List.length_cons, List.length_nil]
      omega
    | cons b bs =>
      rw [List.length_cons, ih (by simp)]
      have h1 : 1 ≤ r.length := List.length_pos.mpr hr
      simp only [List.length_cons]
      omega

theorem sum_map_mul {R : Type} [CommSemiring R] (a : R) (r : List R) :
    (r.map (a * ·)).sum = a * r.sum := by
  induction r with
  | nil => simp
  | cons b bs ih =>
    simp only [List.map_cons, List.sum_cons, ih]
    ring

theorem convExact_sum {R : Type} [CommSemiring R] (l r : List R) :
    (convExact l r).sum = l.sum * r.sum := by
  induction l with
  | nil => simp [convExact]
  | cons a as ih =>
    rw [convExact, addPoly_sum, List.sum_cons, List.sum_cons, ih, sum_map_mul]
    ring

/-- Being a palindrome of length `m`, phrased through `getD`. -/
def PalinLen {R : Type} [CommSemiring R] (l : List R) (m : ℕ) : Prop :=
  l.length = m ∧ ∀ i, i < m → l.getD i 0 = l.getD (m - 1 - i) 0

theorem convExact_palindrome {R : Type} [CommSemiring R] {l r : List R} {p q : ℕ}
    (hp : 1 ≤ p) (hq : 1 ≤ q) (hl : PalinLen l p) (hr : PalinLen r q) :
    PalinLen (convExact l r) (p + q - 1) := by
  obtain ⟨hlp, hlsym⟩ := hl
  obtain ⟨hrq, hrsym⟩ := hr
  subst hlp
  subst hrq
  have hlnil : l ≠ [] := by
    intro h
    rw [h] at hp
    simp at hp
  have hrnil : r ≠ [] := by
    intro h
    rw [h] at hq
    simp at hq
  refine ⟨convExact_length l r hlnil hrnil, ?_⟩
  intro k hk
  rw [convExact_getD_guard, convExact_getD_guard]
  conv_rhs => rw [← Finset.sum_range_reflect]
  apply Finset.sum_congr rfl
  intro i hi
  have hip : i < l.length := Finset.mem_range.mp hi
  have hcond : (l.length - 1 - i ≤ l.length + r.length - 1 - 1 - k ∧
      l.length + r.length - 1 - 1 - k - (l.length - 1 - i) < r.length) ↔
      (i ≤ k ∧ k - i < r.length) := by
    omega
  by_cases hc : i ≤ k ∧ k - i < r.length
  · rw [if_pos hc, if_pos (hcond.mpr hc)]
    have hidx : l.length + r.length - 1 - 1 - k - (l.length - 1 - i)
        = r.length - 1 - (k - i) := by omega
    have hlv : l.getD (l.length - 1 - i) 0 = l.getD i 0 := (hlsym i hip).symm
    rw [hlv, hidx]
    have hrv := hrsym (k - i) hc.2
    rw [hrv]
  · rw [if_neg hc, if_neg fun hx => hc (hcond.mp hx)]

/-! ### Signed 64-bit wrapping -/

theorem wrap64_modEq (v : ℤ) : wrap64 v ≡ v [ZMOD 2 ^ 64] := by
  unfold wrap64 Int.ModEq
  omega

theorem wrap64_eq_of_modEq {a b : ℤ} (h : a ≡ b [ZMOD 2 ^ 64]) :
    wrap64 a = wrap64 b := by
  unfold wrap64
  unfold Int.ModEq at h
  omega

theorem wrap64_lb (v : ℤ) : -(2 ^ 63) ≤ wrap64 v := by
  unfold wrap64
  omega

theorem wrap64_ub (v : ℤ) : wrap64 v < 2 ^ 63 := by
  unfold wrap64
  omega

theorem wrap64_eq_self {v : ℤ} (h0 : 0 ≤ v) (h1 : v < 2 ^ 63) : wrap64 v = v := by
  unfold wrap64
  omega

theorem wrap64_zero : wrap64 0 = 0 := by
  unfold wrap64
  omega

/-- The running wrapped accumulation equals the wrap of the exact sum:
each store keeps the cell congruent to the exact partial sum mod `2^64`,
and the final store lands it in the signed 64-bit range. -/
theorem wrapFold_eq (ts : List ℤ) :
    ∀ a : ℤ, ts.foldl (fun acc t => wrap64 (acc + t)) (wrap64 a) = wrap64 (a + ts.sum) := by
  induction ts with
  | nil =>
    intro a
    simp
  | cons t ts ih =>
    intro a
    rw [List.foldl_cons]
    have hstep : wrap64 (wrap64 a + t) = wrap64 (a + t) :=
      wrap64_eq_of_modEq (Int.ModEq.add_right t (wrap64_modEq a))
    rw [hstep, ih (a + t), List.sum_cons]
    congr 1
    ring

theorem cellWrap_eq (l r : List ℤ) (k : ℕ) :
    cellWrap l r k = wrap64 ((cellTerms l r k).sum) := by
  unfold cellWrap
  have h := wrapFold_eq (cellTerms l r k) 0
  rw [wrap64_zero] at h
  rw [h, zero_add]

theorem range_map_sum {M : Type} [AddCommMonoid M] (f : ℕ → M) (n : ℕ) :
    ((List.range n).map f).sum = (Finset.range n).sum f := by
  induction n with
  | zero => simp
  | succ n ih =>
    rw [List.range_succ, List.map_append, List.sum_append, Finset.sum_range_succ, ih]
    simp

theorem cellTerms_sum (l r : List ℤ) (k : ℕ) :
    (cellTerms l r k).sum = (convExact l r).getD k 0 := by
  rw [cellTerms, range_map_sum, convExact_getD_guard]

/-- The `BigInt64Array` convolution is the exact convolution with every
entry wrapped to the signed 64-bit range. -/
theorem convWrap_eq (l r : List ℤ) (hl : l ≠ []) (hr : r ≠ []) :
    convWrap l r = (convExact l r).map wrap64 := by
  apply list_eq_of_getD (0 : ℤ)
  · rw [convWrap, List.length_map, List.length_range, List.length_map,
      convExact_length l r hl hr]
  · intro k
    rw [convWrap]
    by_cases hk : k < l.length + r.length - 1
    · have h1 : ((List.range (l.length + r.length - 1)).map (cellWrap l r)).getD k 0
          = cellWrap l r k := by
        rw [List.getD_eq_getElem?_getD, List.getElem?_map, List.getElem?_range hk]
        rfl
      rw [h1, cellWrap_eq, cellTerms_sum]
      have h2 : ((convExact l r).map wrap64).getD k 0
          = wrap64 ((convExact l r).getD k 0) := by
        have hk2 : k < (convExact l r).length := by
          rw [convExact_length l r hl hr]
          exact hk
        rw [List.getD_eq_getElem?_getD, List.getElem?_map,
          List.getElem?_eq_getElem hk2]
        simp [List.getD_eq_getElem?_getD, List.getElem?_eq_getElem hk2]
      rw [h2]
    · have h1 : ((List.range (l.length + r.length - 1)).map (cellWrap l r)).getD k 0 = 0 := by
        apply List.getD_eq_default
        rw [List.length_map, List.length_range]
        omega
      have h2 : ((convExact l r).map wrap64).getD k 0 = 0 := by
        apply List.getD_eq_default
        rw [List.length_map, convExact_length l r hl hr]
        omega
      rw [h1, h2]

/-! ### Congruence of convolutions mod 2^64 -/

theorem finset_sum_modEq {s : Finset ℕ} {f g : ℕ → ℤ} {m : ℤ}
    (h : ∀ i ∈ s, f i ≡ g i [ZMOD m]) : s.sum f ≡ s.sum g [ZMOD m] := by
  classical
  induction s using Finset.induction_on with
  | empty => simp [Int.ModEq.refl]
  | insert hx ih =>
    rw [Finset.sum_insert hx, Finset.sum_insert hx]
    exact Int.ModEq.add (h _ (Finset.mem_insert_self _ _))
      (ih fun i hi => h i (Finset.mem_insert_of_mem hi))

theorem convExact_modEq {l l2 r r2 : List ℤ} {m : ℤ}
    (hl : ∀ i, l.getD i 0 ≡ l2.getD i 0 [ZMOD m])
    (hr : ∀ i, r.getD i 0 ≡ r2.getD i 0 [ZMOD m]) :
    ∀ k, (convExact l r).getD k 0 ≡ (convExact l2 r2).getD k 0 [ZMOD m] := by
  intro k
  rw [convExact_getD, convExact_getD]
  exact finset_sum_modEq fun i _ => Int.ModEq.mul (hl i) (hr (k - i))

/-! ### Casting rows from ℕ to ℤ -/

/-- A spec-side row of natural coefficients, as exact `BigInt` values. -/
def castRow (l : List ℕ) : List ℤ := List.map (Nat.cast : ℕ → ℤ) l

theorem castRow_cons (a : ℕ) (as : List ℕ) :
    castRow (a :: as) = (a : ℤ) :: castRow as := rfl

theorem castRow_length (l : List ℕ) : (castRow l).length = l.length :=
  List.length_map _ _

theorem getD_castRow (l : List ℕ) (k : ℕ) :
    (castRow l).getD k 0 = ((l.getD k 0 : ℕ) : ℤ) := by
  induction l generalizing k with
  | nil => rfl
  | cons a as ih =>
    cases k with
    | zero => rfl
    | succ k =>
      rw [castRow_cons, List.getD_cons_succ, List.getD_cons_succ]
      exact ih k

theorem getD_map_wrap64 (l : List ℤ) (k : ℕ) :
    (l.map wrap64).getD k 0 = wrap64 (l.getD k 0) := by
  induction l generalizing k with
  | nil =>
    rw [List.map_nil]
    simp [wrap64_zero]
  | cons a as ih =>
    cases k with
    | zero => rfl
    | succ k =>
      rw [List.map_cons, List.getD_cons_succ, List.getD_cons_succ]
      exact ih k

theorem addPoly_castRow (x y : List ℕ) :
    addPoly (castRow x) (castRow y) = castRow (addPoly x y) := by
  induction x generalizing y with
  | nil => cases y <;> rfl
  | cons a as ih =>
    cases y with
    | nil => rfl
    | cons b bs =>
      rw [castRow_cons, castRow_cons]
      show ((a : ℤ) + (b : ℤ)) :: addPoly (castRow as) (castRow bs) = _
      rw [ih]
      show _ = (((a + b : ℕ) : ℤ)) :: castRow (addPoly as bs)
      rw [Nat.cast_add]

theorem convExact_castRow (l r : List ℕ) :
    convExact (castRow l) (castRow r) = castRow (convExact l r) := by
  induction l with
  | nil => rfl
  | cons a as ih =>
    rw [castRow_cons]
    show addPoly ((castRow r).map ((a : ℤ) * ·)) (0 :: convExact (castRow as) (castRow r)) = _
    rw [ih]
    show _ = castRow (addPoly (r.map (a * ·)) (0 :: convExact as r))
    rw [← addPoly_castRow]
    congr 1
    · rw [castRow, castRow, List.map_map, List.map_map]
      apply List.map_congr_left
      intro v _
      exact (Nat.cast_mul a v).symm

/-! ### The polynomial denotation of rows -/

theorem toPoly_nil : toPoly [] = 0 := rfl

theorem toPoly_cons (a : ℕ) (l : List ℕ) :
    toPoly (a :: l) = Polynomial.C a + Polynomial.X * toPoly l := rfl

theorem toPoly_coeff (l : List ℕ) (k : ℕ) : (toPoly l).coeff k = l.getD k 0 := by
  induction l generalizing k with
  | nil => simp [toPoly_nil]
  | cons a as ih =>
    rw [toPoly_cons]
    cases k with
    | zero =>
      simp [Polynomial.mul_coeff_zero]
    | succ k =>
      rw [Polynomial.coeff_add, Polynomial.coeff_C, Polynomial.coeff_X_mul, ih]
      simp

theorem toPoly_addPoly (x y : List ℕ) :
    toPoly (addPoly x y) = toPoly x + toPoly y := by
  induction x generalizing y with
  | nil => simp [addPoly_nil_left, toPoly_nil]
  | cons a as ih =>
    cases y with
    | nil => simp [addPoly, toPoly_nil]
    | cons b bs =>
      show toPoly ((a + b) :: addPoly as bs) = _
      rw [toPoly_cons, toPoly_cons, toPoly_cons, ih, Polynomial.C_add]
      ring

theorem toPoly_map_mul (a : ℕ) (l : List ℕ) :
    toPoly (l.map (a * ·)) = Polynomial.C a * toPoly l := by
  induction l with
  | nil => simp [toPoly_nil]
  | cons b bs ih =>
    rw [List.map_cons, toPoly_cons, toPoly_cons, ih, Polynomial.C_mul]
    ring

theorem toPoly_convExact (l r : List ℕ) :
    toPoly (convExact l r) = toPoly l * toPoly r := by
  induction l with
  | nil => simp [convExact, toPoly_nil]
  | cons a as ih =>
    rw [convExact, toPoly_addPoly, toPoly_map_mul, toPoly_cons, toPoly_cons, ih]
    simp only [Polynomial.C_0]
    ring

theorem toPoly_replicate (d : ℕ) : toPoly (List.replicate d 1) = dieP d := by
  induction d with
  | zero => simp [toPoly_nil, dieP]
  | succ d ih =>
    rw [List.replicate_succ, toPoly_cons, ih]
    rw [dieP, dieP, Finset.sum_range_succ']
    have hx : ∀ i : ℕ, (Polynomial.X : Polynomial ℕ) ^ (i + 1)
        = Polynomial.X * Polynomial.X ^ i := by
      intro i
      rw [pow_succ, mul_comm]
    simp only [hx, pow_zero]
    rw [← Finset.mul_sum, Polynomial.C_1]
    ring

theorem toPoly_specRow (die n : ℕ) : toPoly (specRow die n) = dieP die ^ n := by
  induction n with
  | zero =>
    show toPoly [1] = _
    rw [toPoly_cons, toPoly_nil]
    simp
  | succ n ih =>
    rw [specRow, toPoly_convExact, ih, toPoly_replicate, pow_succ]

theorem specRow_getD (die n k : ℕ) :
    (specRow die n).getD k 0 = (dieP die ^ n).coeff k := by
  rw [← toPoly_specRow, toPoly_coeff]

/-! ### Shape of the spec rows -/

theorem specRow_length (die n : ℕ) (hd : 1 ≤ die) :
    (specRow die n).length = (die - 1) * n + 1 := by
  induction n with
  | zero => simp [specRow]
  | succ n ih =>
    have hne : specRow die n ≠ [] := by
      intro h
      have := ih
      rw [h] at this
      simp at this
    have hrep : (List.replicate die (1 : ℕ)) ≠ [] := by
      intro h
      have : (List.replicate die (1 : ℕ)).length = 0 := by rw [h]; rfl
      rw [List.length_replicate] at this
      omega
    rw [specRow, convExact_length _ _ hne hrep, ih, List.length_replicate,
      Nat.mul_succ]
    omega

theorem specRow_sum (die n : ℕ) : (specRow die n).sum = die ^ n := by
  induction n with
  | zero => simp [specRow]
  | succ n ih =>
    rw [specRow, convExact_sum, ih, List.sum_replicate, pow_succ]
    simp

theorem specRow_conv (die a b : ℕ) (hd : 1 ≤ die) :
    convExact (specRow die a) (specRow die b) = specRow die (a + b) := by
  have hla := specRow_length die a hd
  have hlb := specRow_length die b hd
  have hne : ∀ m : ℕ, specRow die m ≠ [] := by
    intro m h
    have := specRow_length die m hd
    rw [h] at this
    simp at this
  apply list_eq_of_getD (0 : ℕ)
  · rw [convExact_length _ _ (hne a) (hne b), hla, hlb,
      specRow_length die (a + b) hd, Nat.mul_add]
    omega
  · intro k
    rw [← toPoly_coeff, ← toPoly_coeff, toPoly_convExact, toPoly_specRow,
      toPoly_specRow, toPoly_specRow, ← pow_add]

theorem getD_replicate_of_lt {α : Type} {a d : α} {i n : ℕ} (h : i < n) :
    (List.replicate n a).getD i d = a := by
  induction n generalizing i with
  | zero => omega
  | succ n ih =>
    cases i with
    | zero => rfl
    | succ i =>
      rw [List.replicate_succ, List.getD_cons_succ]
      exact ih (by omega)

theorem replicate_palindrome {R : Type} [CommSemiring R] (die : ℕ) :
    PalinLen (List.replicate die (1 : R)) die := by
  refine ⟨List.length_replicate _ _, ?_⟩
  intro i hi
  rw [getD_replicate_of_lt hi, getD_replicate_of_lt (by omega)]

theorem specRow_palindrome (die n : ℕ) (hd : 1 ≤ die) :
    PalinLen (specRow die n) ((die - 1) * n + 1) := by
  induction n with
  | zero =>
    refine ⟨by simp [specRow], ?_⟩
    intro i hi
    have : i = 0 := by omega
    rw [this]
    norm_num
  | succ n ih =>
    have h := convExact_palindrome (p := (die - 1) * n + 1) (q := die)
      (by omega) (by omega) ih (replicate_palindrome die)
    rw [specRow]
    have harith : (die - 1) * n + 1 + die - 1 = (die - 1) * (n + 1) + 1 := by
      rw [Nat.mul_succ]
      omega
    rw [harith] at h
    exact h

theorem dieP_coeff (die k : ℕ) :
    (dieP die).coeff k = if k < die then 1 else 0 := by
  rw [dieP, Polynomial.finset_sum_coeff]
  have h : ∀ i ∈ Finset.range die,
      (Polynomial.X ^ i : Polynomial ℕ).coeff k = if k = i then 1 else 0 := by
    intro i _
    rw [Polynomial.coeff_X_pow]
  rw [Finset.sum_congr rfl h, Finset.sum_ite_eq (Finset.range die) k (fun _ => (1 : ℕ))]
  simp [Finset.mem_range]

theorem specRow_one (die : ℕ) (hd : 1 ≤ die) :
    specRow die 1 = List.replicate die 1 := by
  apply list_eq_of_getD (0 : ℕ)
  · rw [specRow_length die 1 hd, List.length_replicate]
    omega
  · intro k
    rw [specRow_getD, pow_one, dieP_coeff]
    by_cases hk : k < die
    · rw [if_pos hk, getD_replicate_of_lt hk]
    · rw [if_neg hk]
      have : (List.replicate die (1 : ℕ)).length ≤ k := by
        rw [List.length_replicate]
        omega
      rw [List.getD_eq_default _ _ this]

theorem list_getD_le_sum (l : List ℕ) (k : ℕ) : l.getD k 0 ≤ l.sum := by
  induction l generalizing k with
  | nil => simp
  | cons a as ih =>
    cases k with
    | zero =>
      rw [List.getD_cons_zero, List.sum_cons]
      omega
    | succ k =>
      rw [List.getD_cons_succ, List.sum_cons]
      have := ih k
      omega

theorem palinLen_map_wrap64 {l : List ℤ} {m : ℕ} (h : PalinLen l m) :
    PalinLen (l.map wrap64) m := by
  obtain ⟨hlen, hsym⟩ := h
  refine ⟨by rw [List.length_map, hlen], ?_⟩
  intro i hi
  rw [getD_map_wrap64, getD_map_wrap64, hsym i hi]

theorem palinLen_castRow {l : List ℕ} {m : ℕ} (h : PalinLen l m) :
    PalinLen (castRow l) m := by
  obtain ⟨hlen, hsym⟩ := h
  refine ⟨by rw [castRow_length, hlen], ?_⟩
  intro i hi
  rw [getD_castRow, getD_castRow, hsym i hi]

/-! ### The main invariant of `pascal` -/

theorem convExact_spec_modEq (die a b : ℕ) (hd : 1 ≤ die) (l r : List ℤ)
    (hca : ∀ k : ℕ, l.getD k 0 ≡ ((specRow die a).getD k 0 : ℤ) [ZMOD 2 ^ 64])
    (hcb : ∀ k : ℕ, r.getD k 0 ≡ ((specRow die b).getD k 0 : ℤ) [ZMOD 2 ^ 64]) :
    ∀ k : ℕ, (convExact l r).getD k 0
      ≡ ((specRow die (a + b)).getD k 0 : ℤ) [ZMOD 2 ^ 64] := by
  intro k
  have hca2 : ∀ k : ℕ, l.getD k 0 ≡ (castRow (specRow die a)).getD k 0 [ZMOD 2 ^ 64] := by
    intro k
    rw [getD_castRow]
    exact hca k
  have hcb2 : ∀ k : ℕ, r.getD k 0 ≡ (castRow (specRow die b)).getD k 0 [ZMOD 2 ^ 64] := by
    intro k
    rw [getD_castRow]
    exact hcb k
  have h := convExact_modEq hca2 hcb2 k
  rw [convExact_castRow, specRow_conv die a b hd, getD_castRow] at h
  exact h

theorem convWrap_spec (die a b : ℕ) (hd : 1 ≤ die) (l r : List ℤ)
    (hla : l.length = (die - 1) * a + 1) (hlb : r.length = (die - 1) * b + 1)
    (hca : ∀ k : ℕ, l.getD k 0 ≡ ((specRow die a).getD k 0 : ℤ) [ZMOD 2 ^ 64])
    (hcb : ∀ k : ℕ, r.getD k 0 ≡ ((specRow die b).getD k 0 : ℤ) [ZMOD 2 ^ 64]) :
    convWrap l r = (castRow (specRow die (a + b))).map wrap64 := by
  have hlne : l ≠ [] := by
    intro h
    rw [h] at hla
    exact Nat.succ_ne_zero _ hla.symm
  have hrne : r ≠ [] := by
    intro h
    rw [h] at hlb
    exact Nat.succ_ne_zero _ hlb.symm
  rw [convWrap_eq l r hlne hrne]
  apply list_eq_of_getD (0 : ℤ)
  · rw [List.length_map, List.length_map, castRow_length,
      convExact_length l r hlne hrne, hla, hlb,
      specRow_length die (a + b) hd, Nat.mul_add]
    have harith : ∀ A B : ℕ, A + 1 + (B + 1) - 1 = A + B + 1 := by
      intro A B
      omega
    rw [harith]
  · intro k
    rw [getD_map_wrap64, getD_map_wrap64]
    apply wrap64_eq_of_modEq
    have h := convExact_spec_modEq die a b hd l r hca hcb k
    calc (convExact l r).getD k 0
        ≡ ((specRow die (a + b)).getD k 0 : ℤ) [ZMOD 2 ^ 64] := h
      _ = (castRow (specRow die (a + b))).getD k 0 := (getD_castRow _ _).symm

/-- The central invariant of `pascal`: for every valid `(die, n)` the call
succeeds, the row has the documented length, every entry is congruent
mod `2^64` to the exact coefficient, rows with `n < 27` are exactly the
signed-64-bit wraps of the exact coefficients (they sit in a
`BigInt64Array`), the row is exactly the row of exact coefficients as soon
as every `die^m` for the `BigInt64Array` rows fits below `2^63`, and the
row is a palindrome. -/
theorem pascal_invariant (die : ℕ) (hd : 2 ≤ die) :
    ∀ n : ℕ, 1 ≤ n → n * die ≤ 1000 →
    ∃ row : List ℤ,
      pascalRec die (n : ℤ) = .ok row ∧
      row.length = (die - 1) * n + 1 ∧
      (∀ k : ℕ, row.getD k 0 ≡ ((specRow die n).getD k 0 : ℤ) [ZMOD 2 ^ 64]) ∧
      (n < 27 → row = (castRow (specRow die n)).map wrap64) ∧
      ((∀ m : ℕ, 1 ≤ m → m ≤ n → m < 27 → die ^ m < 2 ^ 63) →
        row = castRow (specRow die n)) ∧
      PalinLen row ((die - 1) * n + 1) := by
  intro n
  induction n using Nat.strong_induction_on with
  | _ n ih =>
    intro hn hg
    have hd1 : 1 ≤ die := by omega
    rcases Nat.lt_or_ge n 2 with h2 | h2
    · -- base case n = 1
      have hn1 : n = 1 := by omega
      subst hn1
      have hco : ((1 : ℕ) : ℤ) = 1 := by norm_num
      have hone : specRow die 1 = List.replicate die 1 := specRow_one die hd1
      have hw1 : wrap64 ((1 : ℕ) : ℤ) = ((1 : ℕ) : ℤ) :=
        wrap64_eq_self (by norm_num) (by norm_num)
      refine ⟨List.replicate die (1 : ℤ), ?_, ?_, ?_, ?_, ?_, ?_⟩
      · rw [hco, pascalRec]
        norm_num
      · rw [List.length_replicate]
        omega
      · intro k
        rw [hone]
        by_cases hk : k < die
        · rw [getD_replicate_of_lt hk, getD_replicate_of_lt hk]
          norm_num
        · have hk1 : (List.replicate die (1 : ℤ)).length ≤ k := by
            rw [List.length_replicate]
            omega
          have hk2 : (List.replicate die (1 : ℕ)).length ≤ k := by
            rw [List.length_replicate]
            omega
          rw [List.getD_eq_default _ _ hk1, List.getD_eq_default _ _ hk2]
          norm_num
      · intro _
        rw [hone, castRow, List.map_replicate, List.map_replicate, hw1]
        norm_num
      · intro _
        rw [hone, castRow, List.map_replicate]
        norm_num
      · have hp := replicate_palindrome (R := ℤ) die
        have harr : (die - 1) * 1 + 1 = die := by omega
        rw [harr]
        exact hp
    · -- recursive case n >= 2
      have hgz : (n : ℤ) * (die : ℤ) ≤ 1000 := by exact_mod_cast hg
      have hga : n / 2 * die ≤ 1000 :=
        le_trans (Nat.mul_le_mul_right die (Nat.div_le_self n 2)) hg
      have hgb : (n - n / 2) * die ≤ 1000 :=
        le_trans (Nat.mul_le_mul_right die (Nat.sub_le n (n / 2))) hg
      obtain ⟨l, hlok, hllen, hlcong, hlwrap, hlexact, hlpal⟩ :=
        ih (n / 2) (by omega) (by omega) hga
      obtain ⟨r, hrok, hrlen, hrcong, hrwrap, hrexact, hrpal⟩ :=
        ih (n - n / 2) (by omega) (by omega) hgb
      have hsplit : n / 2 + (n - n / 2) = n := by omega
      have hc1 : (n : ℤ) / 2 = ((n / 2 : ℕ) : ℤ) := by omega
      have hc2 : (n : ℤ) - (n : ℤ) / 2 = ((n - n / 2 : ℕ) : ℤ) := by omega
      have hmul : (die - 1) * (n / 2) + (die - 1) * (n - n / 2) = (die - 1) * n := by
        rw [← Nat.mul_add, hsplit]
      have harith : ∀ A B : ℕ, A + 1 + (B + 1) - 1 = A + B + 1 := by
        intro A B
        omega
      have hlne : l ≠ [] := by
        intro h
        rw [h] at hllen
        exact Nat.succ_ne_zero _ hllen.symm
      have hrne : r ≠ [] := by
        intro h
        rw [h] at hrlen
        exact Nat.succ_ne_zero _ hrlen.symm
      have hok : pascalRec die (n : ℤ)
          = .ok (if (n : ℤ) < 27 then convWrap l r else convExact l r) := by
        rw [pascalRec, if_neg (by omega), if_neg (by omega),
          if_neg (not_lt.mpr hgz), hc2, hc1, hlok, hrok]
      by_cases hsmall : n < 27
      · -- BigInt64Array-backed row
        have hkey : convWrap l r = (castRow (specRow die n)).map wrap64 := by
          have h := convWrap_spec die (n / 2) (n - n / 2) hd1 l r hllen hrlen
            hlcong hrcong
          rw [hsplit] at h
          exact h
        have hrow : pascalRec die (n : ℤ) = .ok (convWrap l r) := by
          rw [hok, if_pos (by omega)]
        refine ⟨convWrap l r, hrow, ?_, ?_, ?_, ?_, ?_⟩
        · rw [hkey, List.length_map, castRow_length, specRow_length die n hd1]
        · intro k
          rw [hkey, getD_map_wrap64, getD_castRow]
          exact wrap64_modEq _
        · intro _
          exact hkey
        · intro hb
          rw [hkey]
          apply list_eq_of_getD (0 : ℤ)
          · rw [List.length_map]
          · intro k
            rw [getD_map_wrap64, getD_castRow]
            apply wrap64_eq_self
            · exact Int.natCast_nonneg _
            · have h1 : (specRow die n).getD k 0 ≤ (specRow die n).sum :=
                list_getD_le_sum _ _
              have h2 : (specRow die n).sum = die ^ n := specRow_sum die n
              have h3 : die ^ n < 2 ^ 63 := hb n hn (le_refl n) hsmall
              have : (specRow die n).getD k 0 < 2 ^ 63 := by omega
              exact_mod_cast this
        · rw [hkey]
          exact palinLen_map_wrap64 (palinLen_castRow (specRow_palindrome die n hd1))
      · -- plain Array of BigInt
        have hrow : pascalRec die (n : ℤ) = .ok (convExact l r) := by
          rw [hok, if_neg (by omega)]
        refine ⟨convExact l r, hrow, ?_, ?_, ?_, ?_, ?_⟩
        · rw [convExact_length l r hlne hrne, hllen, hrlen, harith, hmul]
        · intro k
          have h := convExact_spec_modEq die (n / 2) (n - n / 2) hd1 l r
            hlcong hrcong k
          rw [hsplit] at h
          exact h
        · intro h27
          exact absurd h27 hsmall
        · intro hb
          have hl2 := hlexact fun m h1 hm h3 =>
            hb m h1 (le_trans hm (Nat.div_le_self n 2)) h3
          have hr2 := hrexact fun m h1 hm h3 =>
            hb m h1 (le_trans hm (Nat.sub_le n (n / 2))) h3
          rw [hl2, hr2, convExact_castRow,
            specRow_conv die (n / 2) (n - n / 2) hd1, hsplit]
        · have h := convExact_palindrome (by omega) (by omega) hlpal hrpal
          rw [harith, hmul] at h
          exact h

/-! ### Row sums -/

theorem sum_eq_range_getD {M : Type} [AddCommMonoid M] (l : List M) :
    l.sum = (Finset.range l.length).sum fun i => l.getD i 0 := by
  induction l with
  | nil => simp
  | cons a as ih =>
    rw [List.sum_cons, List.length_cons, Finset.sum_range_succ']
    simp only [List.getD_cons_succ, List.getD_cons_zero]
    rw [ih]
    exact add_comm _ _

theorem castRow_sum (l : List ℕ) : (castRow l).sum = ((l.sum : ℕ) : ℤ) := by
  induction l with
  | nil => rfl
  | cons a as ih =>
    rw [castRow_cons, List.sum_cons, List.sum_cons, ih]
    push_cast
    ring

theorem list_sum_modEq {x y : List ℤ} {m : ℤ} (hlen : x.length = y.length)
    (h : ∀ k : ℕ, x.getD k 0 ≡ y.getD k 0 [ZMOD m]) : x.sum ≡ y.sum [ZMOD m] := by
  rw [sum_eq_range_getD, sum_eq_range_getD, hlen]
  exact finset_sum_modEq fun i _ => h i

theorem two_pow_small {m : ℕ} (hm : m < 27) : (2 : ℕ) ^ m < 2 ^ 63 := by
  have h1 : (2 : ℕ) ^ m ≤ 2 ^ 26 := Nat.pow_le_pow_right (by omega) (by omega)
  have h2 : (2 : ℕ) ^ 26 < 2 ^ 63 := by norm_num
  omega

/-! ### Claims about the coefficient engine -/

/-- C1 (amended): for every engine with `die >= 2` and every `n >= 1` with
`n * die <= 1000`, `row(n)` succeeds and every returned entry is congruent
mod `2^64` to the exact integer coefficient of the corresponding power of
`x` in `(1 + x + ... + x^(die-1))^n`; for `die = 2` every entry equals the
exact coefficient.  The arithmetic is not exact in general: rows with
`n < 27` are stored in a signed 64-bit `BigInt64Array` and overflow
silently (see the counterexample at `die = 62`, `n = 16`). -/
theorem c1_row_entries (die n : ℕ) (hd : 2 ≤ die) (hn : 1 ≤ n)
    (hg : n * die ≤ 1000) :
    ∃ row : List ℤ, pascalRec die (n : ℤ) = .ok row ∧
      (∀ k : ℕ, row.getD k 0 ≡ (((dieP die ^ n).coeff k : ℕ) : ℤ) [ZMOD 2 ^ 64]) ∧
      (die = 2 → ∀ k : ℕ, row.getD k 0 = (((dieP die ^ n).coeff k : ℕ) : ℤ)) := by
  obtain ⟨row, hok, hlen, hcong, hwrap, hexact, hpal⟩ :=
    pascal_invariant die hd n hn hg
  refine ⟨row, hok, ?_, ?_⟩
  · intro k
    have := hcong k
    rw [specRow_getD] at this
    exact this
  · intro hdie2
    subst hdie2
    have hb : ∀ m : ℕ, 1 ≤ m → m ≤ n → m < 27 → (2 : ℕ) ^ m < 2 ^ 63 :=
      fun m _ _ hm => two_pow_small hm
    intro k
    rw [hexact hb, getD_castRow, specRow_getD]

/-- C1 witness: the amended statement at `die = 6`, `n = 2`. -/
theorem c1_row_entries_witness :
    ∃ row : List ℤ, pascalRec 6 (2 : ℤ) = .ok row ∧
      (∀ k : ℕ, row.getD k 0 ≡ (((dieP 6 ^ 2).coeff k : ℕ) : ℤ) [ZMOD 2 ^ 64]) ∧
      ((6 : ℕ) = 2 → ∀ k : ℕ, row.getD k 0 = (((dieP 6 ^ 2).coeff k : ℕ) : ℤ)) := by
  have h := c1_row_entries 6 2 (by norm_num) (by norm_num) (by norm_num)
  have hcast : ((2 : ℕ) : ℤ) = (2 : ℤ) := by norm_num
  rw [hcast] at h
  exact h

set_option maxHeartbeats 4000000 in
/-- C1 counterexample: at `die = 62`, `n = 16` (permitted by the guard,
`16 * 62 = 992 <= 1000`) the entry of `row(16)` at index 111 is not the
exact coefficient of `x^111` in `(1 + x + ... + x^61)^16`: the exact
coefficient is at least `2^63` and the `BigInt64Array` store wrapped it. -/
theorem c1_counterexample :
    ¬ (((pascalRec 62 (16 : ℤ)).toOption.getD []).getD 111 0
        = (((dieP 62 ^ 16).coeff 111 : ℕ) : ℤ)) := by
  obtain ⟨row, hok, hlen, hcong, hwrap, hexact, hpal⟩ :=
    pascal_invariant 62 (by norm_num) 16 (by norm_num) (by norm_num)
  have hrow : row = (castRow (specRow 62 16)).map wrap64 := hwrap (by norm_num)
  have hok2 : pascalRec 62 (16 : ℤ) = .ok row := hok
  rw [hok2]
  show ¬ (row.getD 111 0 = (((dieP 62 ^ 16).coeff 111 : ℕ) : ℤ))
  rw [hrow, getD_map_wrap64, getD_castRow, ← specRow_getD]
  intro hcontra
  have hub := wrap64_ub (((specRow 62 16).getD 111 0 : ℕ) : ℤ)
  have hbig : 2 ^ 63 ≤ (specRow 62 16).getD 111 0 := by decide
  have hbigz : (2 : ℤ) ^ 63 ≤ (((specRow 62 16).getD 111 0 : ℕ) : ℤ) := by
    exact_mod_cast hbig
  omega

/-- C2 (amended): for every `die >= 2` and `n >= 1` with `n * die <= 1000`
the sum of the entries of `row(n)` is congruent to `die^n` mod `2^64`, and
equals `die^n` exactly for `die = 2`.  The exact equality fails in general
because rows with `n < 27` live in a signed 64-bit `BigInt64Array` (see
the counterexample at `die = 62`, `n = 16`). -/
theorem c2_row_sum (die n : ℕ) (hd : 2 ≤ die) (hn : 1 ≤ n)
    (hg : n * die ≤ 1000) :
    ∃ row : List ℤ, pascalRec die (n : ℤ) = .ok row ∧
      row.sum ≡ ((die ^ n : ℕ) : ℤ) [ZMOD 2 ^ 64] ∧
      (die = 2 → row.sum = ((2 ^ n : ℕ) : ℤ)) := by
  obtain ⟨row, hok, hlen, hcong, hwrap, hexact, hpal⟩ :=
    pascal_invariant die hd n hn hg
  refine ⟨row, hok, ?_, ?_⟩
  · have hlen2 : row.length = (castRow (specRow die n)).length := by
      rw [hlen, castRow_length, specRow_length die n (by omega)]
    have hcong2 : ∀ k : ℕ, row.getD k 0 ≡ (castRow (specRow die n)).getD k 0
        [ZMOD 2 ^ 64] := by
      intro k
      rw [getD_castRow]
      exact hcong k
    have h := list_sum_modEq hlen2 hcong2
    rw [castRow_sum, specRow_sum] at h
    exact h
  · intro hdie2
    subst hdie2
    have hb : ∀ m : ℕ, 1 ≤ m → m ≤ n → m < 27 → (2 : ℕ) ^ m < 2 ^ 63 :=
      fun m _ _ hm => two_pow_small hm
    rw [hexact hb, castRow_sum, specRow_sum]

/-- C2 witness: the amended statement at `die = 6`, `n = 2`. -/
theorem c2_row_sum_witness :
    ∃ row : List ℤ, pascalRec 6 (2 : ℤ) = .ok row ∧
      row.sum ≡ (((6 : ℕ) ^ 2 : ℕ) : ℤ) [ZMOD 2 ^ 64] ∧
      ((6 : ℕ) = 2 → row.sum = ((2 ^ 2 : ℕ) : ℤ)) := by
  exact c2_row_sum 6 2 (by norm_num) (by norm_num) (by norm_num)

/-- C2 counterexample: at `die = 62`, `n = 16` (permitted by the guard)
the sum of the entries of `row(16)` is not `62^16`: every entry of the
`BigInt64Array`-backed row is below `2^63`, so the 977-entry row sums to
less than `977 * 2^63 < 62^16`. -/
theorem c2_counterexample :
    ¬ (((pascalRec 62 (16 : ℤ)).toOption.getD []).sum = ((62 : ℤ)) ^ 16) := by
  obtain ⟨row, hok, hlen, hcong, hwrap, hexact, hpal⟩ :=
    pascal_invariant 62 (by norm_num) 16 (by norm_num) (by norm_num)
  have hrow : row = (castRow (specRow 62 16)).map wrap64 := hwrap (by norm_num)
  have hok2 : pascalRec 62 (16 : ℤ) = .ok row := hok
  rw [hok2]
  show ¬ (row.sum = ((62 : ℤ)) ^ 16)
  have hbound : ∀ x ∈ row, x ≤ 2 ^ 63 - 1 := by
    intro x hx
    rw [hrow] at hx
    obtain ⟨v, hv, hxeq⟩ := List.mem_map.mp hx
    have := wrap64_ub v
    omega
  have hsum := List.sum_le_card_nsmul row (2 ^ 63 - 1) hbound
  have hlen2 : row.length = 977 := by
    rw [hlen]
  have hsmul : row.length • ((2 : ℤ) ^ 63 - 1) = 977 * (2 ^ 63 - 1) := by
    rw [hlen2, nsmul_eq_mul]
    norm_num
  intro hcontra
  rw [hsmul] at hsum
  rw [hcontra] at hsum
  norm_num at hsum

/-- C4 (amended): `row(n)` fails with `InvalidArgument` whenever `n < 1`
(zero or negative), checked first, before anything else; for `n >= 2` it
fails with `ComputationTooLarge` whenever `n * die > 1000`, checked before
any convolution work; no partial row is ever produced (the result is one
exception or one complete row).  The claim as stated is false only for
`n = 1`: the base row is built before the size guard, so `row(1)` succeeds
even when `die > 1000` (see the counterexample). -/
theorem c4_error_guards (die : ℕ) (n : ℤ) :
    (n < 1 → pascalRec die n = .error .invalidArgument) ∧
    (2 ≤ n → 1000 < n * die → pascalRec die n = .error .computationTooLarge) := by
  constructor
  · intro h
    rw [pascalRec, if_pos h]
  · intro h2 hguard
    rw [pascalRec, if_neg (by omega), if_neg (by omega), if_pos hguard]

/-- C4 witness: `row(0)` and `row(-7)` fail with `InvalidArgument`,
`row(501)` at `die = 2` fails with `ComputationTooLarge`. -/
theorem c4_error_guards_witness :
    pascalRec 2 0 = .error .invalidArgument ∧
    pascalRec 2 (-7) = .error .invalidArgument ∧
    pascalRec 2 501 = .error .computationTooLarge := by
  refine ⟨(c4_error_guards 2 0).1 (by norm_num),
    (c4_error_guards 2 (-7)).1 (by norm_num),
    (c4_error_guards 2 501).2 (by norm_num) (by norm_num)⟩

/-- C4 counterexample: `n = 1`, `die = 1001` has `n * die = 1001 > 1000`
but `row(1)` does not fail with `ComputationTooLarge`: the `n == 1` base
case builds the row of 1001 ones without consulting the size guard. -/
theorem c4_counterexample :
    pascalRec 1001 1 = .ok (List.replicate 1001 (1 : ℤ)) ∧
    pascalRec 1001 1 ≠ .error PascalErr.computationTooLarge := by
  have h : pascalRec 1001 1 = .ok (List.replicate 1001 (1 : ℤ)) := by
    rw [pascalRec]
    norm_num
  refine ⟨h, ?_⟩
  rw [h]
  intro hcontra
  exact Except.noConfusion hcontra

/-- C5 (confirmed): for every `die >= 2` and `n >= 1` with
`n * die <= 1000`, `row(n)` has length exactly `(die - 1) * n + 1` and is
palindromic: `row(n)[i] = row(n)[length - 1 - i]` for every `i` in range.
This holds even where entries have wrapped, because wrapping is applied
pointwise to a palindromic row of exact coefficients. -/
theorem c5_length_palindrome (die n : ℕ) (hd : 2 ≤ die) (hn : 1 ≤ n)
    (hg : n * die ≤ 1000) :
    ∃ row : List ℤ, pascalRec die (n : ℤ) = .ok row ∧
      row.length = (die - 1) * n + 1 ∧
      (∀ i : ℕ, i < row.length →
        row.getD i 0 = row.getD (row.length - 1 - i) 0) := by
  obtain ⟨row, hok, hlen, hcong, hwrap, hexact, hpal⟩ :=
    pascal_invariant die hd n hn hg
  obtain ⟨hplen, hpsym⟩ := hpal
  refine ⟨row, hok, hlen, ?_⟩
  intro i hi
  rw [hlen] at hi
  have := hpsym i hi
  rw [hlen]
  exact this

/-- C5 witness: the statement at `die = 6`, `n = 2`. -/
theorem c5_length_palindrome_witness :
    ∃ row : List ℤ, pascalRec 6 (2 : ℤ) = .ok row ∧
      row.length = (6 - 1) * 2 + 1 ∧
      (∀ i : ℕ, i < row.length →
        row.getD i 0 = row.getD (row.length - 1 - i) 0) := by
  exact c5_length_palindrome 6 2 (by norm_num) (by norm_num) (by norm_num)

/-! ### Claims about the cache and the `die` attribute -/

/-- Cache hits: `pascal` consults `this.triangle[n]` right after the
`n < 1` check, before ever reading `this.die`, and returns the cached row
without touching the state. -/
theorem pascalSt_cache_hit (e : Engine) (n : ℤ) (row : List ℤ)
    (hn : 1 ≤ n) (hcache : e.tri n = some row) :
    pascalSt e n = .ok (row, e) := by
  rw [pascalSt, if_neg (by omega)]
  show (match e.tri n with
    | some row => Except.ok (row, e)
    | none => _) = _
  rw [hcache]

/-- C3 (amended): changing the `die` attribute does not invalidate the
cache.  A cached row is returned as-is by a subsequent `row(n)` call,
whatever the new `die` value is. -/
theorem c3_cache_persists (e : Engine) (d : ℕ) (n : ℤ) (row : List ℤ)
    (hn : 1 ≤ n) (hcache : e.tri n = some row) :
    pascalSt ⟨d, e.tri⟩ n = .ok (row, ⟨d, e.tri⟩) :=
  pascalSt_cache_hit ⟨d, e.tri⟩ n row hn hcache

/-- C3 witness: an engine whose cache holds `[9, 9]` at `n = 1` returns
`[9, 9]` after `die` is changed to `7`. -/
theorem c3_cache_persists_witness :
    pascalSt ⟨7, fun m => if m = 1 then some [9, 9] else none⟩ 1
      = .ok ([9, 9], ⟨7, fun m => if m = 1 then some [9, 9] else none⟩) := by
  exact c3_cache_persists ⟨2, fun m => if m = 1 then some [9, 9] else none⟩ 7 1
    [9, 9] (by norm_num) (by norm_num)

/-- C3 counterexample: an engine with `die = 2` computes and caches
`row(1) = [1, 1]`; after changing `die` to `3` the next `row(1)` call
returns the row cached under `die = 2`, namely `[1, 1]`, and not the
single-die row for `die = 3`, which is `[1, 1, 1]`. -/
theorem c3_counterexample :
    ((pascalSt ⟨2, fun _ => none⟩ 1).bind fun p =>
        (pascalSt ⟨3, p.2.tri⟩ 1).map Prod.fst) = .ok [1, 1] ∧
    ([1, 1] : List ℤ) ≠ List.replicate 3 (1 : ℤ) := by
  constructor
  · have h1 : pascalSt ⟨2, fun _ => none⟩ 1
        = .ok (List.replicate 2 (1 : ℤ),
            Engine.insert ⟨2, fun _ => none⟩ 1 (List.replicate 2 (1 : ℤ))) := by
      rw [pascalSt]
      norm_num
    rw [h1]
    have h2 : (Engine.insert ⟨2, fun _ => none⟩ 1 (List.replicate 2 (1 : ℤ))).tri 1
        = some [1, 1] := by
      show Function.update (fun _ => none) (1 : ℤ) (some (List.replicate 2 (1 : ℤ))) 1
        = some [1, 1]
      rw [Function.update_same]
      rfl
    have h3 := pascalSt_cache_hit
      (Engine.insert ⟨2, fun _ => none⟩ 1 (List.replicate 2 (1 : ℤ))) 1 [1, 1]
      (by norm_num) h2
    show ((pascalSt (Engine.mk 3 (Engine.insert ⟨2, fun _ => none⟩ 1
        (List.replicate 2 (1 : ℤ))).tri) 1).map Prod.fst) = .ok [1, 1]
    have h4 := pascalSt_cache_hit
      (Engine.mk 3 (Engine.insert ⟨2, fun _ => none⟩ 1 (List.replicate 2 (1 : ℤ))).tri)
      1 [1, 1] (by norm_num) h2
    rw [h4]
    rfl
  · decide

/-! ### Reduction lemmas for JSNum arithmetic on finite values -/

theorem add_num (a b : ℚ) : JSNum.add (.num a) (.num b) = .num (a + b) := rfl

theorem neg_num (a : ℚ) : JSNum.neg (.num a) = .num (-a) := rfl

theorem sub_num (a b : ℚ) : JSNum.sub (.num a) (.num b) = .num (a - b) := by
  show JSNum.add (.num a) (JSNum.neg (.num b)) = _
  rw [neg_num, add_num]
  congr 1
  ring

theorem mul_num (a b : ℚ) : JSNum.mul (.num a) (.num b) = .num (a * b) := rfl

theorem div_num (a b : ℚ) (h : b ≠ 0) :
    JSNum.div (.num a) (.num b) = .num (a / b) := by
  show (if b = 0 then if a = 0 then JSNum.nan else
      if 0 < a then JSNum.posInf else JSNum.negInf else .num (a / b)) = _
  rw [if_neg h]

theorem abs_num (a : ℚ) : JSNum.abs (.num a) = .num |a| := rfl

theorem lt_num (a b : ℚ) : JSNum.lt (.num a) (.num b) = decide (a < b) := rfl

theorem le_num (a b : ℚ) : JSNum.le (.num a) (.num b) = decide (a ≤ b) := rfl

theorem expJS_num (M : JSMath) (q : ℚ) : expJS M (.num q) = .num (M.exp q) := rfl

/-! ### The branches of `Normal.erfc` -/

theorem erfc_num_neg (M : JSMath) (q : ℚ) (h : q < 0) :
    Normal.erfc M (.num q) = JSNum.sub (.num 2) (Normal.erfcPos M (.num (-q))) := by
  rw [Normal.erfc, if_pos]
  · rw [neg_num]
  · rw [lt_num]
    simpa using h

theorem erfc_num_nonneg (M : JSMath) (q : ℚ) (h : ¬ q < 0) :
    Normal.erfc M (.num q) = Normal.erfcPos M (.num q) := by
  rw [Normal.erfc, if_neg]
  rw [lt_num]
  simpa using h

theorem erfcPos_ge30 (M : JSMath) (q : ℚ) (h : (30 : ℚ) ≤ q) :
    Normal.erfcPos M (.num q) = .num 0 := by
  rw [Normal.erfcPos, if_pos]
  show JSNum.le (.num 30) (.num q) = true
  rw [le_num]
  simpa using h

/-- On `0 <= q` the positive branch of `erfc` is a finite number:
every denominator of the rational approximation is strictly positive. -/
theorem erfcPos_finite (M : JSMath) (q : ℚ) (hq : 0 ≤ q) :
    ∃ e : ℚ, Normal.erfcPos M (.num q) = .num e := by
  by_cases h30 : (30 : ℚ) ≤ q
  · exact ⟨0, erfcPos_ge30 M q h30⟩
  · have hrow : ∀ a c : ℚ, 0 ≤ a → 0 < c → (q + a) * q + c ≠ 0 := by
      intro a c ha hc h
      nlinarith [mul_nonneg (by nlinarith : (0 : ℚ) ≤ q + a) hq]
    have hfold : ∀ rows : List (ℚ × ℚ × ℚ × ℚ),
        (∀ a ∈ rows, 0 ≤ a.2.2.1 ∧ 0 < a.2.2.2) →
        ∀ res : JSNum, (∃ e : ℚ, res = .num e) →
        ∃ e : ℚ, rows.foldl
          (fun res a =>
            JSNum.mul res
              (JSNum.div
                (JSNum.add (JSNum.mul (JSNum.add (.num q) (.num a.1)) (.num q)) (.num a.2.1))
                (JSNum.add (JSNum.mul (JSNum.add (.num q) (.num a.2.2.1)) (.num q)) (.num a.2.2.2))))
          res = .num e := by
      intro rows
      induction rows with
      | nil =>
        intro _ res hres
        simpa using hres
      | cons a rows ih =>
        intro hpos res hres
        obtain ⟨e, he⟩ := hres
        rw [List.foldl_cons]
        apply ih fun b hb => hpos b (List.mem_cons_of_mem a hb)
        refine ⟨e * (((q + a.1) * q + a.2.1) / ((q + a.2.2.1) * q + a.2.2.2)), ?_⟩
        rw [he, add_num, mul_num, add_num, add_num, mul_num, add_num,
          div_num _ _ (hrow a.2.2.1 a.2.2.2
            (hpos a (List.mem_cons_self a rows)).1
            (hpos a (List.mem_cons_self a rows)).2),
          mul_num]
    have hd0 : q + Normal.erfcC2 ≠ 0 := by
      rw [Normal.erfcC2]
      intro h
      nlinarith
    rw [Normal.erfcPos, if_neg]
    · apply hfold
      · rw [Normal.erfcRows]
        intro a ha
        fin_cases ha <;> constructor <;> norm_num
      · refine ⟨M.exp (-(q * q)) * Normal.erfcC1 / (q + Normal.erfcC2), ?_⟩
        rw [mul_num, neg_num, expJS_num, mul_num, add_num, div_num _ _ hd0]
    · show JSNum.le (.num 30) (.num q) = true → False
      rw [le_num]
      simpa using h30

/-- The value of the positive branch of `erfc` at `0`, assuming only
`Math.exp(0) = 1`: an exact rational, within `1.5e-17` of the true
`erfc(0) = 1`. -/
theorem erfcPos_zero (M : JSMath) (hexp : M.exp 0 = 1) :
    Normal.erfcPos M (.num 0)
      = .num (11918675168641462441259081294667927804327205041895855935528994670316022286011527011282302624262121458649 /
          11918675168641462351889780190410903033817154347484195855443242947305371472543562011675973907994741107375) := by
  rw [Normal.erfcPos, if_neg]
  · rw [Normal.erfcRows]
    simp only [List.foldl_cons, List.foldl_nil, Normal.erfcC1, Normal.erfcC2,
      add_num, mul_num, neg_num, expJS_num]
    rw [show (-(0 * 0 : ℚ)) = 0 by norm_num, hexp]
    rw [div_num _ _ (by norm_num), div_num _ _ (by norm_num),
      div_num _ _ (by norm_num), div_num _ _ (by norm_num),
      div_num _ _ (by norm_num), div_num _ _ (by norm_num)]
    simp only [mul_num]
    congr 1
    norm_num
  · show JSNum.le (.num 30) (.num 0) = true → False
    rw [le_num]
    norm_num

/-- C8 (confirmed): for every finite `x`, `erfc(x) + erfc(-x)` is within
`1e-14` of `2`; `erfc(x)` is exactly `0` for `x >= 30`; and for `x < 0`,
`erfc(x)` is exactly `2 - erfc(-x)`.  For `x` away from `0` the reflection
identity is exact by cancellation; at `x = 0` the two sides add to twice
the rational approximation of `erfc(0)`, which is within `1.5e-17` of `1`. -/
theorem c8_erfc_reflection (M : JSMath) (hexp : M.exp 0 = 1) (q : ℚ) :
    (∃ s : ℚ, JSNum.add (Normal.erfc M (.num q)) (Normal.erfc M (.num (-q))) = .num s
      ∧ |s - 2| ≤ 1 / 10 ^ 14) ∧
    ((30 : ℚ) ≤ q → Normal.erfc M (.num q) = .num 0) ∧
    (q < 0 → Normal.erfc M (.num q) = JSNum.sub (.num 2) (Normal.erfc M (.num (-q)))) := by
  refine ⟨?_, ?_, ?_⟩
  · rcases lt_trichotomy q 0 with hq | hq | hq
    · rw [erfc_num_neg M q hq, erfc_num_nonneg M (-q) (by linarith)]
      obtain ⟨e, he⟩ := erfcPos_finite M (-q) (by linarith)
      rw [he, sub_num, add_num]
      refine ⟨2 - e + e, rfl, ?_⟩
      have h : (2 - e + e - 2 : ℚ) = 0 := by ring
      rw [h]
      norm_num
    · subst hq
      rw [show ((-0 : ℚ)) = 0 by norm_num]
      rw [erfc_num_nonneg M 0 (by norm_num), erfcPos_zero M hexp, add_num]
      refine ⟨_, rfl, ?_⟩
      rw [abs_le]
      constructor <;> norm_num
    · rw [erfc_num_nonneg M q (by linarith), erfc_num_neg M (-q) (by linarith)]
      rw [show (-(-q) : ℚ) = q from neg_neg q]
      obtain ⟨e, he⟩ := erfcPos_finite M q (le_of_lt hq)
      rw [he, sub_num, add_num]
      refine ⟨e + (2 - e), rfl, ?_⟩
      have h : (e + (2 - e) - 2 : ℚ) = 0 := by ring
      rw [h]
      norm_num
  · intro h30
    rw [erfc_num_nonneg M q (by linarith), erfcPos_ge30 M q h30]
  · intro hq
    rw [erfc_num_neg M q hq, erfc_num_nonneg M (-q) (by linarith)]

/-- C8 witness: the statement at `exp = const 1`, `sqrt = const 1`,
`x = 1`. -/
theorem c8_erfc_reflection_witness :
    (∃ s : ℚ, JSNum.add (Normal.erfc ⟨fun _ => 1, fun _ => 1⟩ (.num 1))
        (Normal.erfc ⟨fun _ => 1, fun _ => 1⟩ (.num (-1))) = .num s
      ∧ |s - 2| ≤ 1 / 10 ^ 14) ∧
    ((30 : ℚ) ≤ 1 → Normal.erfc ⟨fun _ => 1, fun _ => 1⟩ (.num 1) = .num 0) ∧
    ((1 : ℚ) < 0 → Normal.erfc ⟨fun _ => 1, fun _ => 1⟩ (.num 1)
      = JSNum.sub (.num 2) (Normal.erfc ⟨fun _ => 1, fun _ => 1⟩ (.num (-1)))) :=
  c8_erfc_reflection ⟨fun _ => 1, fun _ => 1⟩ rfl 1

/-- C9 (confirmed): `cdf(0)` is within machine epsilon (`2^-52`) of `1/2`,
`cdf(Infinity)` is exactly `1`, and `cdf(-Infinity)` is exactly `0`. -/
theorem c9_cdf_values (M : JSMath) (hexp : M.exp 0 = 1) :
    (∃ c : ℚ, Normal.cdf M (.num 0) = .num c ∧ |c - 1 / 2| ≤ 1 / 2 ^ 52) ∧
    Normal.cdf M .posInf = .num 1 ∧
    Normal.cdf M .negInf = .num 0 := by
  refine ⟨?_, ?_, ?_⟩
  · rw [Normal.cdf, neg_num, div_num _ _ (by rw [sqrt2Q]; norm_num)]
    rw [show ((-0 : ℚ) / sqrt2Q) = 0 by norm_num]
    rw [erfc_num_nonneg M 0 (by norm_num), erfcPos_zero M hexp,
      div_num _ _ (by norm_num)]
    refine ⟨_, rfl, ?_⟩
    rw [abs_le]
    constructor <;> norm_num
  · rw [Normal.cdf]
    have h2 : JSNum.div (JSNum.neg .posInf) (.num sqrt2Q) = .negInf := by
      show (if 0 ≤ sqrt2Q then JSNum.negInf else JSNum.posInf) = _
      rw [if_pos]
      rw [sqrt2Q]
      norm_num
    rw [h2, Normal.erfc, if_pos (show JSNum.lt .negInf (.num 0) = true from rfl)]
    have h3 : Normal.erfcPos M (JSNum.neg .negInf) = .num 0 := by
      rw [Normal.erfcPos, if_pos (show JSNum.ge (JSNum.neg .negInf) (.num 30)
        = true from rfl)]
    rw [h3, sub_num, div_num _ _ (by norm_num)]
    congr 1
    norm_num
  · rw [Normal.cdf]
    have h2 : JSNum.div (JSNum.neg .negInf) (.num sqrt2Q) = .posInf := by
      show (if 0 ≤ sqrt2Q then JSNum.posInf else JSNum.negInf) = _
      rw [if_pos]
      rw [sqrt2Q]
      norm_num
    rw [h2, Normal.erfc, if_neg (show ¬ JSNum.lt .posInf (.num 0) = true by
      intro h
      exact Bool.noConfusion h)]
    have h3 : Normal.erfcPos M .posInf = .num 0 := by
      rw [Normal.erfcPos, if_pos (show JSNum.ge .posInf (.num 30) = true from rfl)]
    rw [h3, div_num _ _ (by norm_num)]
    congr 1
    norm_num

/-- C9 witness: the statement at `exp = const 1`, `sqrt = const 1`. -/
theorem c9_cdf_values_witness :
    (∃ c : ℚ, Normal.cdf ⟨fun _ => 1, fun _ => 1⟩ (.num 0) = .num c
      ∧ |c - 1 / 2| ≤ 1 / 2 ^ 52) ∧
    Normal.cdf ⟨fun _ => 1, fun _ => 1⟩ .posInf = .num 1 ∧
    Normal.cdf ⟨fun _ => 1, fun _ => 1⟩ .negInf = .num 0 :=
  c9_cdf_values ⟨fun _ => 1, fun _ => 1⟩ rfl

/-- C7 (confirmed): `probit(y)` throws `InvalidArgument` whenever
`y < 0 || y > 1` holds; `probit(0)` returns `-Infinity` and `probit(1)`
returns `Infinity`, both before the Newton loop, with zero iterations
executed. -/
theorem c7_probit_domain (M : JSMath) (y : JSNum) :
    (JSNum.lt y (.num 0) = true ∨ JSNum.gt y (.num 1) = true →
      Normal.probit M y = .error .invalidArgument) ∧
    Normal.probit M (.num 0) = .ok (.negInf, 0) ∧
    Normal.probit M (.num 1) = .ok (.posInf, 0) := by
  refine ⟨?_, rfl, rfl⟩
  intro h
  rw [Normal.probit, if_pos]
  rcases h with h | h <;> simp [h]

/-- C7 witness: `probit(-1/10)` and `probit(11/10)` throw
`InvalidArgument`; `probit(0)` and `probit(1)` return the infinities. -/
theorem c7_probit_domain_witness :
    Normal.probit ⟨fun _ => 1, fun _ => 1⟩ (.num (-1 / 10))
      = .error .invalidArgument ∧
    Normal.probit ⟨fun _ => 1, fun _ => 1⟩ (.num (11 / 10))
      = .error .invalidArgument ∧
    Normal.probit ⟨fun _ => 1, fun _ => 1⟩ (.num 0) = .ok (.negInf, 0) ∧
    Normal.probit ⟨fun _ => 1, fun _ => 1⟩ (.num 1) = .ok (.posInf, 0) :=
  ⟨(c7_probit_domain ⟨fun _ => 1, fun _ => 1⟩ (.num (-1 / 10))).1
      (Or.inl (by rw [lt_num]; simp only [decide_eq_true_eq]; norm_num)),
    (c7_probit_domain ⟨fun _ => 1, fun _ => 1⟩ (.num (11 / 10))).1
      (Or.inr (by show JSNum.lt (.num 1) (.num (11 / 10)) = true
                  rw [lt_num]
                  simp only [decide_eq_true_eq]
                  norm_num)),
    (c7_probit_domain ⟨fun _ => 1, fun _ => 1⟩ (.num 0)).2.1,
    (c7_probit_domain ⟨fun _ => 1, fun _ => 1⟩ (.num 0)).2.2⟩

theorem sub_nan (x : JSNum) : JSNum.sub x .nan = .nan := by
  cases x <;> rfl

/-- C10 (confirmed): `probit(NaN)` neither throws `InvalidArgument` nor
runs a Newton step: every comparison against `NaN` is false, so the domain
test and the `y == 0` / `y == 1` tests fall through, `fx = cdf(0) - NaN`
is `NaN`, the loop guard `Math.abs(fx) > 2.3e-16` is false, and the
initial `x = 0` is returned with zero iterations. -/
theorem c10_probit_nan (M : JSMath) :
    Normal.probit M .nan = .ok (.num 0, 0) ∧
    JSNum.lt .nan (.num 0) = false ∧
    JSNum.gt .nan (.num 1) = false := by
  refine ⟨?_, rfl, rfl⟩
  rw [Normal.probit, if_neg (by decide), if_neg (by decide), if_neg (by decide),
    sub_nan, Normal.newton, dif_neg (by decide)]

/-- C10 witness: the statement at `exp = const 1`, `sqrt = const 1`. -/
theorem c10_probit_nan_witness :
    Normal.probit ⟨fun _ => 1, fun _ => 1⟩ .nan = .ok (.num 0, 0) ∧
    JSNum.lt .nan (.num 0) = false ∧
    JSNum.gt .nan (.num 1) = false :=
  c10_probit_nan ⟨fun _ => 1, fun _ => 1⟩

theorem eq_num (a b : ℚ) : JSNum.eq (.num a) (.num b) = decide (a = b) := rfl

/-- The Newton loop invariant: starting from any `cnt <= 40` with
`fx = cdf(x) - y`, the loop executes at most `40 - cnt` more iterations,
the final count is at most `40`, and if the loop stopped before the cap
then the guard `Math.abs(cdf(x) - y) > 2.3e-16` is false at the result. -/
theorem newton_spec (M : JSMath) (y : JSNum) :
    ∀ fuel cnt : ℕ, ∀ x fx : JSNum, 40 - cnt = fuel → cnt ≤ 40 →
      fx = JSNum.sub (Normal.cdf M x) y →
      (Normal.newton M y x fx cnt).2 ≤ 40 ∧
      ((Normal.newton M y x fx cnt).2 < 40 →
        JSNum.gt (JSNum.abs (JSNum.sub (Normal.cdf M
          (Normal.newton M y x fx cnt).1) y)) (.num Normal.probitTol) = false) := by
  intro fuel
  induction fuel with
  | zero =>
    intro cnt x fx hfuel hcnt hfx
    have hc : cnt = 40 := by omega
    subst hc
    rw [Normal.newton, dif_neg (fun h => absurd h.2 (by omega))]
    exact ⟨le_refl 40, fun h => absurd h (by omega)⟩
  | succ fuel ih =>
    intro cnt x fx hfuel hcnt hfx
    have hcnt40 : cnt < 40 := by omega
    rw [Normal.newton]
    by_cases hguard : JSNum.gt (JSNum.abs fx) (.num Normal.probitTol) = true
    · rw [dif_pos ⟨hguard, hcnt40⟩]
      exact ih (cnt + 1) (JSNum.sub x (JSNum.div fx (Normal.pdf M x)))
        (JSNum.sub (Normal.cdf M (JSNum.sub x (JSNum.div fx (Normal.pdf M x)))) y)
        (by omega) (by omega) rfl
    · rw [dif_neg (fun h => hguard h.1)]
      refine ⟨hcnt, ?_⟩
      intro _
      rw [← hfx]
      exact Bool.eq_false_iff.mpr hguard

/-- C6 (confirmed): for every `y` strictly between `0` and `1`, `probit(y)`
terminates: the Newton loop runs at most 40 iterations, and if it stopped
before the cap then the loop guard `Math.abs(cdf(x) - y) > 2.3e-16` is
false at the returned `x` (it cannot loop forever: the loop counter is
part of the guard). -/
theorem c6_probit_terminates (M : JSMath) (y : ℚ) (h0 : 0 < y) (h1 : y < 1) :
    ∃ x : JSNum, ∃ steps : ℕ,
      Normal.probit M (.num y) = .ok (x, steps) ∧ steps ≤ 40 ∧
      (steps < 40 → JSNum.gt (JSNum.abs (JSNum.sub (Normal.cdf M x) (.num y)))
        (.num Normal.probitTol) = false) := by
  have hlt : JSNum.lt (.num y) (.num 0) = false := by
    rw [lt_num]
    simp only [decide_eq_false_iff_not]
    intro h
    linarith
  have hgt : JSNum.gt (.num y) (.num 1) = false := by
    show JSNum.lt (.num 1) (.num y) = false
    rw [lt_num]
    simp only [decide_eq_false_iff_not]
    intro h
    linarith
  have he0 : JSNum.eq (.num y) (.num 0) = false := by
    rw [eq_num]
    simp only [decide_eq_false_iff_not]
    intro h
    rw [h] at h0
    exact absurd h0 (by norm_num)
  have he1 : JSNum.eq (.num y) (.num 1) = false := by
    rw [eq_num]
    simp only [decide_eq_false_iff_not]
    intro h
    rw [h] at h1
    exact absurd h1 (by norm_num)
  rw [Normal.probit, hlt, hgt, he0, he1]
  simp only [Bool.or_self]
  rw [if_neg Bool.false_ne_true, if_neg Bool.false_ne_true,
    if_neg Bool.false_ne_true]
  obtain ⟨hle, himp⟩ := newton_spec M (.num y) 40 0 (.num 0)
    (JSNum.sub (Normal.cdf M (.num 0)) (.num y)) (by omega) (by omega) rfl
  exact ⟨_, _, rfl, hle, himp⟩

/-- C6 witness: the statement at `exp = const 1`, `sqrt = const 1`,
`y = 1/2`. -/
theorem c6_probit_terminates_witness :
    ∃ x : JSNum, ∃ steps : ℕ,
      Normal.probit ⟨fun _ => 1, fun _ => 1⟩ (.num (1 / 2)) = .ok (x, steps) ∧
      steps ≤ 40 ∧
      (steps < 40 → JSNum.gt (JSNum.abs (JSNum.sub
        (Normal.cdf ⟨fun _ => 1, fun _ => 1⟩ x) (.num (1 / 2))))
        (.num Normal.probitTol) = false) :=
  c6_probit_terminates ⟨fun _ => 1, fun _ => 1⟩ (1 / 2) (by norm_num) (by norm_num)
